import Mathlib

/-!
Verification of the sparse-set ECS core (entity allocator, sparse-set
storages, group-range resolution and system dispatcher) against its
natural-language specification.

The Rust sources are shallowly embedded: machine integers become `Nat`
with explicit bounds where overflow matters, fallible operations return
`Option`, and stateful operations are explicit state-passing functions.
Types whose defining module is not part of the provided sources
(`Entity`, `IndexEntity`, `SparseArray`) are modelled from the
specification; every operation of the provided sources is translated
line by line from the Rust code.
-/

namespace Ecstasy

/-- Largest value of a `u32`. -/
def u32Max : Nat := 4294967295

/-- Modelled from the spec: an `Entity` is `(index: u32, version: NonZero u32)`;
equality includes the version. -/
structure Entity where
  index : Nat
  version : Nat
deriving DecidableEq, Repr

/-- Modelled from the spec: `Entity::with_index(id)` creates an entity with the
given index and the first (nonzero) version. -/
def Entity.with_index (index : Nat) : Entity :=
  ⟨index, 1⟩

/-- Modelled from the spec: `Entity::with_next_version` increments the version
if it can still be incremented, otherwise the slot is retired (`None`). -/
def Entity.with_next_version (e : Entity) : Option Entity :=
  if e.version < u32Max then some ⟨e.index, e.version + 1⟩ else none

/-- Modelled from the spec: `IndexEntity` is `(dense_index: u32, version: u32)`,
the payload stored in a sparse-array slot. -/
structure IndexEntity where
  index : Nat
  version : Nat
deriving DecidableEq, Repr

/-- `IndexEntity::new`. -/
def IndexEntity.new (index version : Nat) : IndexEntity :=
  ⟨index, version⟩

/-- Modelled from the spec: a `SparseArray` is a logical mapping
`u32 -> Option IndexEntity` (the paging is an allocation detail; reads into
unmapped pages return `None`). -/
def SparseArray : Type := Nat → Option IndexEntity

/-- The empty sparse array (all pages unmapped). -/
def SparseArray.empty : SparseArray := fun _ => none

/-- Write one slot of a sparse array. -/
def SparseArray.set (s : SparseArray) (i : Nat) (v : Option IndexEntity) : SparseArray :=
  fun j => if j = i then v else s j

/-- Modelled from the spec: `get_index_entity` returns the stored slot iff the
stored version matches the querying entity's version. -/
def SparseArray.get_index_entity (s : SparseArray) (e : Entity) : Option IndexEntity :=
  match s e.index with
  | some ie => if ie.version = e.version then some ie else none
  | none => none

/-- Modelled from the spec: `contains` is a version-checked presence test. -/
def SparseArray.contains (s : SparseArray) (e : Entity) : Bool :=
  (s.get_index_entity e).isSome

/-- Modelled from the spec: `remove(e)` clears the slot and returns the dense
index iff the slot was present with matching version. -/
def SparseArray.remove (s : SparseArray) (e : Entity) : Option Nat × SparseArray :=
  match s.get_index_entity e with
  | some ie => (some ie.index, s.set e.index none)
  | none => (none, s)

/-- `Vec::swap_remove(i)`: replace element `i` with the last element and pop. -/
def swapRemove {α : Type} (l : List α) (i : Nat) : List α :=
  match l.getLast? with
  | none => l
  | some last => (l.set i last).dropLast

/-- The live-entity sparse set of `entity_storage.rs`. -/
structure EntitySparseSet where
  sparse : SparseArray
  entities : List Entity

/-- The empty live-entity set. -/
def EntitySparseSet.default : EntitySparseSet :=
  ⟨SparseArray.empty, []⟩

/-- `EntitySparseSet::insert`, translated from `entity_storage.rs`: the raw
slot is read without a version check; on `Some` the dense entry is
overwritten in place, on `None` a fresh slot is appended. -/
def EntitySparseSet.insert (s : EntitySparseSet) (e : Entity) : EntitySparseSet :=
  match s.sparse e.index with
  | some index_entity => { s with entities := s.entities.set index_entity.index e }
  | none =>
      { sparse := s.sparse.set e.index (some (IndexEntity.new s.entities.length e.version)),
        entities := s.entities ++ [e] }

/-- `EntitySparseSet::remove`, translated from `entity_storage.rs`: clear the
removed slot, then (before the swap-remove) write the current last entity's
slot with index `entities.len() - 1`, then swap-remove the dense entry. -/
def EntitySparseSet.remove (s : EntitySparseSet) (e : Entity) : EntitySparseSet × Bool :=
  match (SparseArray.remove s.sparse e : Option Nat × SparseArray) with
  | (none, _) => (s, false)
  | (some dense_index, sparse1) =>
      match s.entities.getLast? with
      | some last =>
          (⟨sparse1.set last.index
              (some (IndexEntity.new (s.entities.length - 1) last.version)),
            swapRemove s.entities dense_index⟩, true)
      | none => (⟨sparse1, swapRemove s.entities dense_index⟩, true)

/-- `EntitySparseSet::contains`. -/
def EntitySparseSet.contains (s : EntitySparseSet) (e : Entity) : Bool :=
  s.sparse.contains e

/-- `EntitySparseSet::clear`. -/
def EntitySparseSet.clear (_s : EntitySparseSet) : EntitySparseSet :=
  ⟨SparseArray.empty, []⟩

/-- The type-erased component sparse set of `type_erased_sparse_set2.rs`.
The type-erased payload vector is modelled as a list of `Nat` and the
per-slot component flags as a list of `Bool`; both are manipulated in
parallel with `dense`, exactly as in the source. -/
structure TypeErasedSparseSet where
  sparse : SparseArray
  dense : List Entity
  flags : List Bool
  data : List Nat

/-- `TypeErasedSparseSet::delete`, translated from
`type_erased_sparse_set2.rs`: look up the (version-checked) index entity of
the deleted entity, read the last dense entity's index, swap-remove the
parallel arrays, then write `Some(index_entity)` into the last entity's
sparse slot and `None` into the deleted entity's slot. -/
def TypeErasedSparseSet.delete (s : TypeErasedSparseSet) (e : Entity) : TypeErasedSparseSet :=
  match s.sparse.get_index_entity e with
  | none => s
  | some index_entity =>
      match s.dense.getLast? with
      | none => s
      | some last =>
          { sparse := ((s.sparse.set last.index (some index_entity)).set e.index none),
            dense := swapRemove s.dense index_entity.index,
            flags := swapRemove s.flags index_entity.index,
            data := swapRemove s.data index_entity.index }

/-- `TypeErasedSparseSet::contains`. -/
def TypeErasedSparseSet.contains (s : TypeErasedSparseSet) (e : Entity) : Bool :=
  s.sparse.contains e

/-- `TypeErasedSparseSet::len`. -/
def TypeErasedSparseSet.len (s : TypeErasedSparseSet) : Nat :=
  s.dense.length

/-- The Storage-Dense invariant of the spec: for every dense slot `i`, the
sparse array maps the stored entity's index back to slot `i` with that
entity's version. -/
def storageDense (sparse : SparseArray) (dense : List Entity) : Prop :=
  ∀ i, (h : i < dense.length) →
    sparse (dense[i].index) = some (IndexEntity.new i (dense[i].version))

instance (sparse : SparseArray) (dense : List Entity) :
    Decidable (storageDense sparse dense) := by
  unfold storageDense
  infer_instance

/-- The entity allocator of `entity_storage.rs`. `current_id` and
`recycled_len` are the atomics; the embedding gives their sequential
(single-caller) semantics. -/
structure EntityAllocator where
  current_id : Nat
  last_id : Nat
  recycled : List Entity
  recycled_len : Nat

/-- The default (empty) allocator. -/
def EntityAllocator.default : EntityAllocator :=
  ⟨0, 0, [], 0⟩

/-- `atomic_decrement_usize` (sequential semantics): like `fetch_sub`, but
returns `None` on underflow instead of wrapping; returns the previous value
and the new counter. -/
def atomic_decrement_usize (v : Nat) : Option Nat × Nat :=
  if v = 0 then (none, v) else (some v, v - 1)

/-- `atomic_increment_u32` (sequential semantics): like `fetch_add`, but
returns `None` on overflow instead of wrapping; returns the previous value
and the new counter. -/
def atomic_increment_u32 (v : Nat) : Option Nat × Nat :=
  if v = u32Max then (none, v) else (some v, v + 1)

/-- `EntityAllocator::allocate`, translated from `entity_storage.rs`:
pop a recycled entity, else `checked_add` the current id. -/
def EntityAllocator.allocate (a : EntityAllocator) : Option Entity × EntityAllocator :=
  match a.recycled.getLast? with
  | some entity =>
      (some entity,
       { a with recycled := a.recycled.dropLast, recycled_len := a.recycled_len - 1 })
  | none =>
      if a.current_id < u32Max then
        (some (Entity.with_index a.current_id), { a with current_id := a.current_id + 1 })
      else
        (none, a)

/-- `EntityAllocator::allocate_atomic`, translated from `entity_storage.rs`:
CAS-decrement `recycled_len` and on success read `recycled[prev - 1]`,
else CAS-increment `current_id`. The out-of-bounds read that a desynced
`recycled_len` would cause in Rust (a panic) is modelled by a default
element; the theorems assume `recycled_len <= recycled.len()` so the
default is never the returned value. -/
def EntityAllocator.allocate_atomic (a : EntityAllocator) : Option Entity × EntityAllocator :=
  match atomic_decrement_usize a.recycled_len with
  | (some recycled_len, new_len) =>
      (some (a.recycled.getD (recycled_len - 1) (Entity.with_index 0)),
       { a with recycled_len := new_len })
  | (none, _) =>
      match atomic_increment_u32 a.current_id with
      | (some prev, new_id) =>
          (some (Entity.with_index prev), { a with current_id := new_id })
      | (none, _) => (none, a)

/-- `EntityAllocator::deallocate`: push the next version if it exists,
otherwise retire the slot. -/
def EntityAllocator.deallocate (a : EntityAllocator) (e : Entity) : EntityAllocator :=
  match e.with_next_version with
  | some next =>
      { a with recycled := a.recycled ++ [next], recycled_len := a.recycled_len + 1 }
  | none => a

/-- `EntityAllocator::maintain`, translated from `entity_storage.rs`:
read `remaining = recycled_len`, then set `recycled_len := recycled.len()`
(evaluated before the drain, as in the source), record the new-id range
`last_id..current_id`, set `last_id := current_id`, and yield
`recycled.drain(remaining..)` chained with the new ids. -/
def EntityAllocator.maintain (a : EntityAllocator) : List Entity × EntityAllocator :=
  (a.recycled.drop a.recycled_len
     ++ (List.range' a.last_id (a.current_id - a.last_id)).map Entity.with_index,
   { a with
       recycled_len := a.recycled.length,
       last_id := a.current_id,
       recycled := a.recycled.take a.recycled_len })

/-- The `EntityStorage` of `entity_storage.rs`: live-entity set plus
allocator. -/
structure EntityStorage where
  storage : EntitySparseSet
  allocator : EntityAllocator

/-- The default (empty) entity storage. -/
def EntityStorage.default : EntityStorage :=
  ⟨EntitySparseSet.default, EntityAllocator.default⟩

/-- `EntityStorage::maintain`: insert every entity yielded by the
allocator's maintain into the live set. -/
def EntityStorage.maintain (s : EntityStorage) : EntityStorage :=
  match s.allocator.maintain with
  | (news, alloc1) => ⟨news.foldl EntitySparseSet.insert s.storage, alloc1⟩

/-- `EntityStorage::create`: maintain, allocate (`none` models the
"No entities left to allocate" panic), insert. -/
def EntityStorage.create (s : EntityStorage) : Option (Entity × EntityStorage) :=
  match (s.maintain : EntityStorage) with
  | s1 =>
      match s1.allocator.allocate with
      | (some e, alloc2) => some (e, ⟨s1.storage.insert e, alloc2⟩)
      | (none, _) => none

/-- `EntityStorage::create_atomic`: allocate atomically under shared borrow;
only the allocator's atomic counters change. -/
def EntityStorage.create_atomic (s : EntityStorage) : Option (Entity × EntityStorage) :=
  match s.allocator.allocate_atomic with
  | (some e, alloc1) => some (e, ⟨s.storage, alloc1⟩)
  | (none, _) => none

/-- `EntityStorage::destroy`: maintain, remove from the live set, and
deallocate on success. -/
def EntityStorage.destroy (s : EntityStorage) (e : Entity) : EntityStorage × Bool :=
  match (s.maintain : EntityStorage) with
  | s1 =>
      match s1.storage.remove e with
      | (st2, true) => (⟨st2, s1.allocator.deallocate e⟩, true)
      | (st2, false) => (⟨st2, s1.allocator⟩, false)

/-- `EntityStorage::contains`. -/
def EntityStorage.contains (s : EntityStorage) (e : Entity) : Bool :=
  s.storage.contains e

/-- Modelled from the spec: the registry of typed storages
(`ComponentStorages`, not among the provided sources) as a mapping from
`TypeId` (a `Nat`) to a typed sparse set. -/
def ComponentStorages : Type := Nat → TypeErasedSparseSet

/-- The registry with every storage empty. -/
def ComponentStorages.empty : ComponentStorages :=
  fun _ => ⟨SparseArray.empty, [], [], []⟩

/-- Modelled from the spec (section 4.3): `insert(e, c)` on a typed storage —
if present, overwrite the payload; else append a fresh slot. -/
def TypeErasedSparseSet.insert (s : TypeErasedSparseSet) (e : Entity) (c : Nat) :
    TypeErasedSparseSet :=
  match s.sparse.get_index_entity e with
  | some index_entity => { s with data := s.data.set index_entity.index c }
  | none =>
      { sparse := s.sparse.set e.index (some (IndexEntity.new s.dense.length e.version)),
        dense := s.dense ++ [e],
        flags := s.flags ++ [true],
        data := s.data ++ [c] }

/-- Modelled from the spec: `ComponentSet::insert` — insert every
`(type id, payload)` pair into its typed storage. -/
def insertComponentSet (m : ComponentStorages) (e : Entity) (cs : List (Nat × Nat)) :
    ComponentStorages :=
  cs.foldl (fun m tc => fun t => if t = tc.1 then (m tc.1).insert e tc.2 else m t) m

/-- The `World` of `world.rs`, restricted to the state the entity-lifecycle
claims read: the entity storage (from the source), the typed storages and
the group lengths (the grouping code is not among the provided sources, so
its effect on destruction is a parameter `ungroup` below). -/
structure World where
  entities : EntityStorage
  storages : ComponentStorages
  groupLens : List Nat

/-- The default (empty) world. -/
def World.default : World :=
  ⟨EntityStorage.default, ComponentStorages.empty, []⟩

/-- `World::contains_entity`. -/
def World.contains_entity (w : World) (e : Entity) : Bool :=
  w.entities.contains e

/-- `World::create_entity`, translated from `world.rs`: create the entity,
then insert its components (the result of `insert_components` is ignored). -/
def World.create_entity (w : World) (cs : List (Nat × Nat)) : Option (Entity × World) :=
  match w.entities.create with
  | none => none
  | some (e, ents1) =>
      some (e, { w with entities := ents1, storages := insertComponentSet w.storages e cs })

/-- `World::destroy_entity`, translated from `world.rs`: if the entity
storage fails to destroy, return `false`; else ungroup the entity's
components (`ungroup` stands for the `ungroup_all_components` code that is
not among the provided sources), delete the entity from every typed
storage, and return `true`. -/
def World.destroy_entity (ungroup : List Nat → Entity → List Nat) (w : World) (e : Entity) :
    World × Bool :=
  match w.entities.destroy e with
  | (ents1, false) => ({ w with entities := ents1 }, false)
  | (ents1, true) =>
      (⟨ents1, fun t => (w.storages t).delete e, ungroup w.groupLens e⟩, true)

/-- The access descriptors of `registry.rs`; `ComponentInfo` and `TypeId`
are both modelled as `Nat` (their equality is equality of the referenced
type). -/
inductive RegistryAccess where
  | Commands : RegistryAccess
  | Comp : Nat → RegistryAccess
  | CompMut : Nat → RegistryAccess
  | Res : Nat → RegistryAccess
  | ResMut : Nat → RegistryAccess
deriving DecidableEq, Repr

/-- `RegistryAccess::conflicts`, translated case by case from `registry.rs`. -/
def RegistryAccess.conflicts : RegistryAccess → RegistryAccess → Bool
  | .Comp comp1, .CompMut comp2 => decide (comp1 = comp2)
  | .CompMut comp1, .Comp comp2 => decide (comp1 = comp2)
  | .CompMut comp1, .CompMut comp2 => decide (comp1 = comp2)
  | .Res res1, .ResMut res2 => decide (res1 = res2)
  | .ResMut res1, .Res res2 => decide (res1 = res2)
  | .ResMut res1, .ResMut res2 => decide (res1 = res2)
  | _, _ => false

/-- The component `TypeId` an access references, if it is a component
access. -/
def RegistryAccess.compId : RegistryAccess → Option Nat
  | .Comp c => some c
  | .CompMut c => some c
  | _ => none

/-- The resource `TypeId` an access references, if it is a resource
access. -/
def RegistryAccess.resId : RegistryAccess → Option Nat
  | .Res r => some r
  | .ResMut r => some r
  | _ => none

/-- Whether the access is an exclusive component access. -/
def RegistryAccess.isCompMut : RegistryAccess → Bool
  | .CompMut _ => true
  | _ => false

/-- Whether the access is an exclusive resource access. -/
def RegistryAccess.isResMut : RegistryAccess → Bool
  | .ResMut _ => true
  | _ => false

/-- The conflict relation as the spec words it: two accesses conflict iff
they reference the same component `TypeId` with at least one `CompMut`, or
the same resource `TypeId` with at least one `ResMut`. -/
def specConflicts (a b : RegistryAccess) : Prop :=
  (∃ t, a.compId = some t ∧ b.compId = some t ∧ (a.isCompMut = true ∨ b.isCompMut = true)) ∨
  (∃ t, a.resId = some t ∧ b.resId = some t ∧ (a.isResMut = true ∨ b.isResMut = true))

/-- A system: its identity, its declared accesses, and the error it returns
when run (`none` = success). -/
structure System where
  sid : Nat
  accesses : List RegistryAccess
  fails : Option Nat
deriving DecidableEq, Repr

/-- A local system (runs on the dispatching thread). -/
structure LocalSystem where
  sid : Nat
  accesses : List RegistryAccess
  fails : Option Nat
deriving DecidableEq, Repr

/-- A local function step. -/
structure LocalFn where
  sid : Nat
  fails : Option Nat
deriving DecidableEq, Repr

/-- `SimpleStep` of `dispatcher.rs`. -/
inductive SimpleStep where
  | RunSystem : System → SimpleStep
  | RunLocalSystem : LocalSystem → SimpleStep
  | RunLocalFn : LocalFn → SimpleStep
  | FlushCommands : SimpleStep
deriving DecidableEq, Repr

/-- `Step` of `dispatcher.rs`. -/
inductive Step where
  | RunSystems : List System → Step
  | RunLocalSystems : List LocalSystem → Step
  | RunLocalFns : List LocalFn → Step
  | FlushCommands : Step
deriving DecidableEq, Repr

/-- The conflict test of `merge_and_optimize_steps`: does any access of any
system already in the stage conflict with any access of the newcomer? -/
def systemsConflict (systems : List System) (system : System) : Bool :=
  systems.any fun s =>
    s.accesses.any fun access1 =>
      system.accesses.any fun access2 => access1.conflicts access2

/-- One iteration of the `merge_and_optimize_steps` loop. The accumulated
steps are kept in reverse order (head = most recent), so `steps.last_mut()`
is the head. -/
def pushSimpleStep (steps : List Step) (s : SimpleStep) : List Step :=
  match s with
  | .RunSystem system =>
      match steps with
      | .RunSystems systems :: rest =>
          if systemsConflict systems system then
            .RunSystems [system] :: .RunSystems systems :: rest
          else
            .RunSystems (systems ++ [system]) :: rest
      | _ => .RunSystems [system] :: steps
  | .RunLocalSystem system =>
      match steps with
      | .RunLocalSystems systems :: rest => .RunLocalSystems (systems ++ [system]) :: rest
      | _ => .RunLocalSystems [system] :: steps
  | .RunLocalFn f =>
      match steps with
      | .RunLocalFns fs :: rest => .RunLocalFns (fs ++ [f]) :: rest
      | _ => .RunLocalFns [f] :: steps
  | .FlushCommands =>
      match steps with
      | .FlushCommands :: _ => steps
      | [] => steps
      | _ => .FlushCommands :: steps

/-- `merge_and_optimize_steps`, translated from `dispatcher.rs`: fold the
simple steps (with a terminal flush appended) through the merging loop. -/
def merge_and_optimize_steps (simple_steps : List SimpleStep) : List Step :=
  ((simple_steps ++ [SimpleStep.FlushCommands]).foldl pushSimpleStep []).reverse

/-- The dispatcher: scheduled steps plus the per-world change ticks
(`FxHashMap<WorldId, Ticks>` modelled as a partial map). -/
structure Dispatcher where
  steps : List Step
  change_ticks : Nat → Option Nat

/-- `DispatcherBuilder::build`: merge and optimize the recorded simple
steps; the change-tick map starts empty. -/
def build (simple_steps : List SimpleStep) : Dispatcher :=
  ⟨merge_and_optimize_steps simple_steps, fun _ => none⟩

/-- One observable event of a dispatcher run: a system run through the
registry (with the change tick it was given), a local function run, or a
command flush. -/
inductive ExecEvent where
  | sys : Nat → Nat → ExecEvent
  | localFn : Nat → ExecEvent
  | flush : ExecEvent
deriving DecidableEq, Repr

/-- Body of the `run_seq` loop: errors collected so far and events
performed so far, extended by one step. `change_tick` is the tick handed to
every registry-run system of the run. -/
def runStep (change_tick : Nat) (acc : List Nat × List ExecEvent) (step : Step) :
    List Nat × List ExecEvent :=
  match step with
  | .RunSystems systems =>
      (acc.1 ++ systems.filterMap System.fails,
       acc.2 ++ systems.map fun s => .sys s.sid change_tick)
  | .RunLocalSystems systems =>
      (acc.1 ++ systems.filterMap LocalSystem.fails,
       acc.2 ++ systems.map fun s => .sys s.sid change_tick)
  | .RunLocalFns fs =>
      (acc.1 ++ fs.filterMap LocalFn.fails,
       acc.2 ++ fs.map fun f => .localFn f.sid)
  | .FlushCommands => (acc.1, acc.2 ++ [.flush])

/-- `Dispatcher::run_seq`, translated from `dispatcher.rs`: read
`world_tick` at entry, read the stored change tick (defaulting to 0),
run every step collecting errors, store `change_tick := world_tick`, and
return `Ok` iff no errors were collected (else the aggregated `RunError`).
The returned triple is (result, updated dispatcher, event trace). -/
def Dispatcher.run_seq (d : Dispatcher) (world_tick wid : Nat) :
    Except (List Nat) Unit × Dispatcher × List ExecEvent :=
  match d.steps.foldl (runStep ((d.change_ticks wid).getD 0)) ([], []) with
  | (errors, trace) =>
      (if errors.isEmpty then Except.ok () else Except.error errors,
       { d with change_ticks := fun w => if w = wid then some world_tick else d.change_ticks w },
       trace)

/-- Body of the `run_par` loop: identical to the sequential body except that
a `RunSystems` stage with more than one system goes through the parallel
runner, whose error collection (`par_iter` + ordered `collect`) yields the
same errors in the same encounter order. -/
def runStepPar (change_tick : Nat) (acc : List Nat × List ExecEvent) (step : Step) :
    List Nat × List ExecEvent :=
  match step with
  | .RunSystems systems =>
      if systems.length > 1 then
        (acc.1 ++ systems.filterMap System.fails,
         acc.2 ++ systems.map fun s => .sys s.sid change_tick)
      else
        runStep change_tick acc (.RunSystems systems)
  | other => runStep change_tick acc other

/-- `Dispatcher::run_par`, translated from `dispatcher.rs` (deterministic
semantics: within a parallel stage the collected error order is the
systems' order, as produced by the ordered parallel collect). -/
def Dispatcher.run_par (d : Dispatcher) (world_tick wid : Nat) :
    Except (List Nat) Unit × Dispatcher × List ExecEvent :=
  match d.steps.foldl (runStepPar ((d.change_ticks wid).getD 0)) ([], []) with
  | (errors, trace) =>
      (if errors.isEmpty then Except.ok () else Except.error errors,
       { d with change_ticks := fun w => if w = wid then some world_tick else d.change_ticks w },
       trace)

/-- `Dispatcher::max_concurrecy` (source spelling), translated from
`dispatcher.rs`. -/
def Dispatcher.max_concurrecy (d : Dispatcher) : Nat :=
  d.steps.foldl
    (fun m st =>
      match st with
      | .RunSystems systems => max m systems.length
      | _ => m)
    1

/-- The errors of one step in encounter order (specification-side
description). -/
def stepErrors : Step → List Nat
  | .RunSystems systems => systems.filterMap System.fails
  | .RunLocalSystems systems => systems.filterMap LocalSystem.fails
  | .RunLocalFns fs => fs.filterMap LocalFn.fails
  | .FlushCommands => []

/-- All system errors of a run in encounter order across stages. -/
def allErrors (steps : List Step) : List Nat :=
  steps.flatMap stepErrors

/-- The ids of the runnables of one step, in order. -/
def stepRunnableIds : Step → List Nat
  | .RunSystems systems => systems.map System.sid
  | .RunLocalSystems systems => systems.map LocalSystem.sid
  | .RunLocalFns fs => fs.map LocalFn.sid
  | .FlushCommands => []

/-- The ids of every runnable of every stage, in order. -/
def allRunnableIds (steps : List Step) : List Nat :=
  steps.flatMap stepRunnableIds

/-- The ids of the runnables actually executed in a trace, in order. -/
def executedIds (trace : List ExecEvent) : List Nat :=
  trace.filterMap fun e =>
    match e with
    | .sys i _ => some i
    | .localFn i => some i
    | .flush => none

/-- The number-of-systems counts of the `RunSystems` stages. -/
def runSystemsSizes (steps : List Step) : List Nat :=
  steps.filterMap fun st =>
    match st with
    | .RunSystems systems => some systems.length
    | _ => none

/-- `StorageMask::from_to` / `GroupMask::from_to` of `group_mask.rs`:
the bits `[from, to)`, computed as `((1 << (to - from)) - 1) << from`. -/
def maskFromTo (f t : Nat) : Nat :=
  ((1 <<< (t - f)) - 1) <<< f

/-- The `QueryMask` of `group_mask.rs`: an include bitset and an exclude
bitset (fields renamed `inc`/`exc` because `include` is reserved). -/
structure QueryMask where
  inc : Nat
  exc : Nat
deriving DecidableEq, Repr

/-- `QueryMask::include(arity)` from `group_mask.rs`: all components of the
group included, nothing excluded. -/
def QueryMask.ofInclude (arity : Nat) : QueryMask :=
  ⟨maskFromTo 0 arity, 0⟩

/-- `QueryMask::exclude(prev_arity, arity)` from `group_mask.rs`: the inner
group's components included, the outer group's remaining components
excluded. -/
def QueryMask.ofExclude (prev_arity arity : Nat) : QueryMask :=
  ⟨maskFromTo 0 prev_arity, maskFromTo prev_arity arity⟩

/-- Modelled from the spec: a group of a family — the arity of the previous
(nested) group, its own arity, and its current length `L_g`. Its masks are
the `QueryMask::include`/`QueryMask::exclude` values of `group_mask.rs`. -/
structure Group where
  prevArity : Nat
  arity : Nat
  len : Nat
deriving DecidableEq, Repr

instance : Inhabited Group := ⟨⟨0, 0, 0⟩⟩

/-- `Group::include_mask`. -/
def Group.include_mask (g : Group) : QueryMask :=
  QueryMask.ofInclude g.arity

/-- `Group::exclude_mask`. -/
def Group.exclude_mask (g : Group) : QueryMask :=
  QueryMask.ofExclude g.prevArity g.arity

/-- Modelled from the spec: a family is an ordered list of nested groups of
strictly increasing arity; each group's `prevArity` is the previous group's
arity (0 for the innermost group). -/
def FamilyWF (fam : List Group) : Prop :=
  ∀ i, (h : i < fam.length) →
    fam[i].prevArity = (if i = 0 then 0 else (fam.getD (i - 1) default).arity) ∧
    fam[i].prevArity < fam[i].arity

instance (fam : List Group) : Decidable (FamilyWF fam) := by
  unfold FamilyWF
  infer_instance

/-- Modelled from the spec: the union bitset of a list of family-local
component indices (one bit per component). -/
def maskOfList (cs : List Nat) : Nat :=
  cs.foldr (fun c m => (1 <<< c) ||| m) 0

/-- Modelled from the spec: the `QueryMask` of a query including the
components `incl` and excluding the components `excl`. -/
def queryMaskOf (incl excl : List Nat) : QueryMask :=
  ⟨maskOfList incl, maskOfList excl⟩

/-- Modelled from the spec: a storage's `group_offset` — the index of the
innermost group of the family containing the component. -/
def groupOffsetOf (fam : List Group) (c : Nat) : Nat :=
  match fam with
  | [] => 0
  | g :: t => if c < g.arity then 0 else groupOffsetOf t c + 1

/-- The query's `group_offset` as accumulated by
`QueryGroupInfo::new/include/exclude` of `group_info.rs`: the maximum of
the component views' offsets. -/
def queryOffsetOf (fam : List Group) (incl excl : List Nat) : Nat :=
  ((incl ++ excl).map (groupOffsetOf fam)).foldr max 0

/-- `QueryGroupInfo::group_range`, translated from `group_info.rs`. The
family pointer is the list `fam`; the outer `Option` distinguishes normal
completion (`some`) from the undefined behaviour the source can exhibit:
the unchecked read `*group_family.add(group_offset)` past the family
(`none`), and the `u32` underflow of `group_offset - 1` when the exclude
branch is taken at offset 0 (`none`). -/
def group_range (fam : List Group) (group_offset : Nat) (query_mask : QueryMask) :
    Option (Option (Nat × Nat)) :=
  match fam[group_offset]? with
  | none => none
  | some group =>
      if query_mask = group.include_mask then
        some (some (0, group.len))
      else if query_mask = group.exclude_mask then
        match group_offset with
        | 0 => none
        | j + 1 =>
            match fam[j]? with
            | none => none
            | some prev_group => some (some (prev_group.len, group.len))
      else
        some none

/-- Index of the first group satisfying `p`, if any. -/
def firstMatch (p : Group → Bool) : List Group → Option Nat
  | [] => none
  | g :: t => if p g then some 0 else (firstMatch p t).map (· + 1)

/-- The spec's group-range resolution algorithm (section 4.5): walk the
family's groups; an include-mask match on `g` yields `[0, L_g)`; else an
exclude-mask match on a nested pair `(g', g)` (so `g` is not the innermost
group) yields `[L_{g'}, L_g)`; else no dense range. -/
def specGroupRange (fam : List Group) (query_mask : QueryMask) : Option (Nat × Nat) :=
  match firstMatch (fun g => query_mask = g.include_mask) fam with
  | some j => some (0, (fam.getD j default).len)
  | none =>
      match firstMatch (fun g => query_mask = g.exclude_mask) fam with
      | some (j + 1) => some ((fam.getD j default).len, (fam.getD (j + 1) default).len)
      | _ => none

/-- The arity of the outermost group of the family. -/
def lastArity (fam : List Group) : Nat :=
  match fam.getLast? with
  | some g => g.arity
  | none => 0

end Ecstasy

namespace Ecstasy

/-- A two-entity live set `[a, b]` with consistent sparse slots. -/
def sampleLiveSet : EntitySparseSet :=
  ⟨fun i => if i = 0 then some ⟨0, 1⟩ else if i = 1 then some ⟨1, 1⟩ else none,
   [⟨0, 1⟩, ⟨1, 1⟩]⟩

/-- A two-entity typed storage whose first entity has version 2. -/
def sampleTypedSet : TypeErasedSparseSet :=
  ⟨fun i => if i = 0 then some ⟨0, 2⟩ else if i = 1 then some ⟨1, 1⟩ else none,
   [⟨0, 2⟩, ⟨1, 1⟩], [false, false], [10, 20]⟩

/-- A world with one pending atomic allocation (entity `(0, 1)`). -/
def pendingWorld : World :=
  ⟨⟨EntitySparseSet.default, ⟨1, 0, [], 0⟩⟩, ComponentStorages.empty, []⟩

/-- The S3 family of the spec: `{A, B}` (arity 2, length 30) nested in
`{A, B, C}` (arity 3, length 60). -/
def sampleFamily : List Group :=
  [⟨0, 2, 30⟩, ⟨2, 3, 60⟩]

/-- The conclusion of the `allocate_atomic` claim, for one allocator state:
with recycled entries pending, the call decrements `recycled_len`, returns
`recycled[new_len]` and leaves `current_id` unchanged; with none pending it
returns `Entity::with_index(current_id)` and increments `current_id`; it
returns `None` exactly when no recycled entries remain and incrementing
`current_id` would overflow `u32`, in which case the state is unchanged. -/
def C7Prop (a : EntityAllocator) : Prop :=
  (a.recycled_len ≠ 0 →
     ∃ hlt : a.recycled_len - 1 < a.recycled.length,
       a.allocate_atomic =
         (some (a.recycled.get ⟨a.recycled_len - 1, hlt⟩),
          { a with recycled_len := a.recycled_len - 1 })) ∧
  (a.recycled_len = 0 → a.current_id < u32Max →
     a.allocate_atomic =
       (some (Entity.with_index a.current_id), { a with current_id := a.current_id + 1 })) ∧
  (a.allocate_atomic.1 = none ↔ a.recycled_len = 0 ∧ a.current_id = u32Max) ∧
  (a.allocate_atomic.1 = none → a.allocate_atomic.2 = a)

/-- An allocator with one recycled entry, for the C7 witness. -/
def c7Alloc : EntityAllocator :=
  ⟨7, 0, [⟨5, 2⟩], 1⟩

/-- A settled world and a fresh entity for the C9 witness. -/
def c9UngroupId : List Nat → Entity → List Nat :=
  fun g _ => g

/-- Two systems of one stage never conflict: no access of one conflicts
with any access of the other. -/
def noConflict (s t : System) : Prop :=
  ∀ a1 ∈ s.accesses, ∀ a2 ∈ t.accesses, a1.conflicts a2 = false

/-- The scheduling invariant of one step: a `RunSystems` stage is pairwise
non-conflicting. -/
def stepOk : Step → Prop
  | .RunSystems systems => systems.Pairwise noConflict
  | _ => True

/-- A system with an exclusive component access, for the C3 witness. -/
def c3sysA : System :=
  ⟨1, [.CompMut 0], none⟩

/-- A system with a disjoint shared component access, for the C3 witness. -/
def c3sysB : System :=
  ⟨2, [.Comp 1], none⟩

/-- The events one step contributes to a run's trace. -/
def stepTrace (change_tick : Nat) : Step → List ExecEvent
  | .RunSystems systems => systems.map fun s => .sys s.sid change_tick
  | .RunLocalSystems systems => systems.map fun s => .sys s.sid change_tick
  | .RunLocalFns fs => fs.map fun f => .localFn f.sid
  | .FlushCommands => [.flush]

/-- The full trace of a run, stage by stage. -/
def runTrace (change_tick : Nat) (steps : List Step) : List ExecEvent :=
  steps.flatMap (stepTrace change_tick)

/-- A one-system dispatcher for the C6 witness. -/
def c6Disp : Dispatcher :=
  build [SimpleStep.RunSystem ⟨3, [], none⟩]

end Ecstasy

namespace Ecstasy

/-- C1: after a sequence of inserts, `EntitySparseSet::remove` of a non-last
entity leaves the moved (last) entity's sparse slot pointing at its old
dense index (the source writes `entities.len() - 1` instead of the vacated
`dense_index`), and `TypeErasedSparseSet::delete` writes the deleted
entity's version (not the moved entity's own version) into the moved
entity's sparse slot; both break the Storage-Dense invariant the claim
states, shown here on concrete two-entity storages that satisfied it
before the call. -/
theorem ecstasy_c1 :
    storageDense sampleLiveSet.sparse sampleLiveSet.entities ∧
    ¬ storageDense (sampleLiveSet.remove ⟨0, 1⟩).1.sparse
        (sampleLiveSet.remove ⟨0, 1⟩).1.entities ∧
    storageDense sampleTypedSet.sparse sampleTypedSet.dense ∧
    ¬ storageDense (sampleTypedSet.delete ⟨0, 2⟩).sparse
        (sampleTypedSet.delete ⟨0, 2⟩).dense := by
  decide

/-- C2: creating an entity in an empty world and destroying it (it occupies
the last dense slot) makes `destroy_entity` return `true`, yet
`contains_entity` still reports `true` afterwards: when the removed entity
is the last dense entry, `EntitySparseSet::remove` re-writes the removed
entity's own sparse slot (via the `entities.last()` patch executed before
the swap-remove) instead of leaving it cleared. -/
theorem ecstasy_c2 :
    ((World.default.create_entity []).map fun ew =>
        match World.destroy_entity c9UngroupId ew.2 ew.1 with
        | (w2, destroyed) => (destroyed, w2.contains_entity ew.1))
      = some (true, true) := by
  decide

/-- C4: `RegistryAccess::conflicts` returns `true` iff the two accesses
reference the same component `TypeId` with at least one `CompMut`, or the
same resource `TypeId` with at least one `ResMut`; `Commands` conflicts
with nothing. -/
theorem ecstasy_c4 (a b : RegistryAccess) :
    (a.conflicts b = true ↔ specConflicts a b) ∧
    RegistryAccess.conflicts .Commands b = false ∧
    a.conflicts .Commands = false := by
  refine ⟨?_, ?_, ?_⟩
  · cases a <;> cases b <;>
      simp [RegistryAccess.conflicts, specConflicts, RegistryAccess.compId,
        RegistryAccess.resId, RegistryAccess.isCompMut, RegistryAccess.isResMut, eq_comm]
  · cases b <;> simp [RegistryAccess.conflicts]
  · cases a <;> simp [RegistryAccess.conflicts]

/-- C7: `allocate_atomic` pops `recycled[new_len]` after decrementing
`recycled_len` when recycled entries remain (leaving `current_id` alone),
otherwise returns `Entity::with_index(current_id)` and increments
`current_id`, failing (and leaving the state unchanged, wrapping nothing)
exactly when no recycled entries remain and `current_id` is at `u32::MAX`. -/
theorem ecstasy_c7 (a : EntityAllocator) (h : a.recycled_len ≤ a.recycled.length) :
    C7Prop a := by
  unfold C7Prop EntityAllocator.allocate_atomic atomic_decrement_usize atomic_increment_u32
  by_cases h0 : a.recycled_len = 0
  · by_cases hmax : a.current_id = u32Max <;>
      simp [h0, hmax]
  · have hlt : a.recycled_len - 1 < a.recycled.length := by omega
    refine ⟨fun _ => ⟨hlt, ?_⟩, fun hc => absurd hc h0, ?_, ?_⟩ <;>
      simp [h0, List.getElem?_eq_getElem hlt, List.get_eq_getElem]

/-- C9 counterexample: with one pending `create_atomic` allocation, the
pending entity is not contained in the world, yet `destroy_entity` on it
returns `true` (the claim says `false`): `EntityStorage::destroy` first
runs `maintain`, which materialises the pending entity. -/
theorem ecstasy_c9_counterexample :
    pendingWorld.contains_entity ⟨0, 1⟩ = false ∧
    (World.destroy_entity c9UngroupId pendingWorld ⟨0, 1⟩).2 = true := by
  decide

/-- On a fully settled allocator (`recycled_len = recycled.len()` and
`last_id = current_id`), `EntityStorage::maintain` is the identity. -/
theorem maintain_settled (s : EntityStorage)
    (h1 : s.allocator.recycled_len = s.allocator.recycled.length)
    (h2 : s.allocator.last_id = s.allocator.current_id) :
    s.maintain = s := by
  obtain ⟨st, ⟨ci, li, rec, rl⟩⟩ := s
  simp only at h1 h2
  subst h1 h2
  simp [EntityStorage.maintain, EntityAllocator.maintain, List.take_length,
    List.drop_length, List.range'_zero]

/-- C9 (amended): destroying an entity that is not contained in the world
(once pending `create_atomic` allocations are materialised) returns `false`
and touches neither the component storages nor the group lengths; the only
state change is the `maintain()` that destroy runs first, which
materialises pending atomic allocations into the live set and allocator
and advances `last_id` to `current_id`. When the allocator is fully
settled (`recycled_len = recycled.len()` and `last_id = current_id`) that
`maintain` is the identity, so the call is a complete no-op. -/
theorem ecstasy_c9 (ungroup : List Nat → Entity → List Nat) (w : World) (e : Entity)
    (hnc : (w.entities.maintain).contains e = false) :
    World.destroy_entity ungroup w e = ({ w with entities := w.entities.maintain }, false) ∧
    (w.entities.allocator.recycled_len = w.entities.allocator.recycled.length →
      w.entities.allocator.last_id = w.entities.allocator.current_id →
      w.entities.maintain = w.entities ∧
        World.destroy_entity ungroup w e = (w, false)) := by
  have hnone : (w.entities.maintain).storage.sparse.get_index_entity e = none := by
    cases hx : (w.entities.maintain).storage.sparse.get_index_entity e with
    | none => rfl
    | some v =>
        rw [EntityStorage.contains, EntitySparseSet.contains, SparseArray.contains,
          hx] at hnc
        simp at hnc
  have hA : World.destroy_entity ungroup w e
      = ({ w with entities := w.entities.maintain }, false) := by
    simp only [World.destroy_entity, EntityStorage.destroy, EntitySparseSet.remove,
      SparseArray.remove, hnone]
  refine ⟨hA, fun h1 h2 => ?_⟩
  have hid : w.entities.maintain = w.entities := maintain_settled w.entities h1 h2
  rw [hid] at hA
  exact ⟨hid, hA⟩

/-- C7 witness: the claim instantiated on an allocator with one recycled
entry. -/
theorem ecstasy_c7_witness :
    c7Alloc.recycled_len ≤ c7Alloc.recycled.length ∧ C7Prop c7Alloc :=
  ⟨by decide, ecstasy_c7 c7Alloc (by decide)⟩

/-- C9 witness: the amended claim instantiated on the default world (fully
settled allocator) and a fresh entity. -/
theorem ecstasy_c9_witness :
    World.destroy_entity c9UngroupId World.default ⟨0, 1⟩ = (World.default, false) :=
  ((ecstasy_c9 c9UngroupId World.default ⟨0, 1⟩ (by decide)).2 (by decide) (by decide)).2

/-- C10: `max_concurrecy` is the maximum of 1 and the largest `RunSystems`
stage size, hence always a valid (nonzero) thread-pool size. -/
theorem ecstasy_c10 (d : Dispatcher) :
    d.max_concurrecy = max 1 ((runSystemsSizes d.steps).foldr max 0) ∧
    1 ≤ d.max_concurrecy := by
  have key : ∀ (l : List Step) (a : Nat),
      l.foldl
        (fun m st =>
          match st with
          | .RunSystems systems => max m systems.length
          | _ => m)
        a = max a ((runSystemsSizes l).foldr max 0) := by
    intro l
    induction l with
    | nil => intro a; simp [runSystemsSizes]
    | cons h t ih =>
        intro a
        cases h <;> simp [runSystemsSizes, ih, Nat.max_assoc]
  constructor
  · exact key d.steps 1
  · rw [Dispatcher.max_concurrecy, key d.steps 1]
    exact le_max_left _ _

/-- The conflict relation of `registry.rs` is symmetric. -/
theorem conflicts_comm (a b : RegistryAccess) : a.conflicts b = b.conflicts a := by
  cases a <;> cases b <;>
    simp only [RegistryAccess.conflicts] <;>
    exact decide_eq_decide.mpr eq_comm

/-- `noConflict` is symmetric. -/
theorem noConflict_symm {s t : System} (h : noConflict s t) : noConflict t s := by
  intro a1 h1 a2 h2
  rw [conflicts_comm]
  exact h a2 h2 a1 h1

/-- A failed conflict check means the newcomer conflicts with no system of
the stage. -/
theorem systemsConflict_eq_false {systems : List System} {system : System}
    (h : systemsConflict systems system = false) :
    ∀ s ∈ systems, noConflict s system := by
  intro s hs a1 h1 a2 h2
  by_contra hc
  rw [Bool.not_eq_false] at hc
  have : systemsConflict systems system = true := by
    simp only [systemsConflict, List.any_eq_true]
    exact ⟨s, hs, a1, h1, a2, h2, hc⟩
  rw [this] at h
  exact Bool.noConfusion h

/-- One merging iteration preserves the scheduling invariant. -/
theorem pushSimpleStep_ok {steps : List Step} (s : SimpleStep)
    (h : ∀ st ∈ steps, stepOk st) :
    ∀ st ∈ pushSimpleStep steps s, stepOk st := by
  have hsingle : ∀ x : System, stepOk (.RunSystems [x]) :=
    fun x => List.pairwise_singleton _ _
  intro st hst
  cases s with
  | RunSystem system =>
      rcases steps with _ | ⟨hd, rest⟩
      · simp only [pushSimpleStep, List.mem_cons] at hst
        rcases hst with h1 | h1
        · subst h1; exact hsingle _
        · simp at h1
      · cases hd with
        | RunSystems systems =>
            simp only [pushSimpleStep] at hst
            by_cases hc : systemsConflict systems system
            · rw [if_pos hc] at hst
              rcases List.mem_cons.mp hst with h1 | h1
              · subst h1; exact hsingle _
              · exact h st h1
            · rw [if_neg hc] at hst
              rcases List.mem_cons.mp hst with h1 | h1
              · subst h1
                show (systems ++ [system]).Pairwise noConflict
                rw [List.pairwise_append]
                refine ⟨h _ (List.mem_cons_self _ _), List.pairwise_singleton _ _, ?_⟩
                intro a ha b hb
                rw [List.mem_singleton] at hb
                have hc2 : systemsConflict systems system = false := by
                  simpa using hc
                subst hb
                exact systemsConflict_eq_false hc2 a ha
              · exact h st (List.mem_cons_of_mem _ h1)
        | RunLocalSystems l =>
            simp only [pushSimpleStep, List.mem_cons] at hst
            rcases hst with h1 | h1 | h1
            · subst h1; exact hsingle _
            · subst h1; exact h _ (List.mem_cons_self _ _)
            · exact h st (List.mem_cons_of_mem _ h1)
        | RunLocalFns l =>
            simp only [pushSimpleStep, List.mem_cons] at hst
            rcases hst with h1 | h1 | h1
            · subst h1; exact hsingle _
            · subst h1; exact h _ (List.mem_cons_self _ _)
            · exact h st (List.mem_cons_of_mem _ h1)
        | FlushCommands =>
            simp only [pushSimpleStep, List.mem_cons] at hst
            rcases hst with h1 | h1 | h1
            · subst h1; exact hsingle _
            · subst h1; exact h _ (List.mem_cons_self _ _)
            · exact h st (List.mem_cons_of_mem _ h1)
  | RunLocalSystem system =>
      rcases steps with _ | ⟨hd, rest⟩
      · simp only [pushSimpleStep, List.mem_cons] at hst
        rcases hst with h1 | h1
        · subst h1; exact trivial
        · simp at h1
      · cases hd with
        | RunLocalSystems l =>
            simp only [pushSimpleStep, List.mem_cons] at hst
            rcases hst with h1 | h1
            · subst h1; exact trivial
            · exact h st (List.mem_cons_of_mem _ h1)
        | RunSystems l =>
            simp only [pushSimpleStep, List.mem_cons] at hst
            rcases hst with h1 | h1 | h1
            · subst h1; exact trivial
            · subst h1; exact h _ (List.mem_cons_self _ _)
            · exact h st (List.mem_cons_of_mem _ h1)
        | RunLocalFns l =>
            simp only [pushSimpleStep, List.mem_cons] at hst
            rcases hst with h1 | h1 | h1
            · subst h1; exact trivial
            · subst h1; exact h _ (List.mem_cons_self _ _)
            · exact h st (List.mem_cons_of_mem _ h1)
        | FlushCommands =>
            simp only [pushSimpleStep, List.mem_cons] at hst
            rcases hst with h1 | h1 | h1
            · subst h1; exact trivial
            · subst h1; exact h _ (List.mem_cons_self _ _)
            · exact h st (List.mem_cons_of_mem _ h1)
  | RunLocalFn f =>
      rcases steps with _ | ⟨hd, rest⟩
      · simp only [pushSimpleStep, List.mem_cons] at hst
        rcases hst with h1 | h1
        · subst h1; exact trivial
        · simp at h1
      · cases hd with
        | RunLocalFns l =>
            simp only [pushSimpleStep, List.mem_cons] at hst
            rcases hst with h1 | h1
            · subst h1; exact trivial
            · exact h st (List.mem_cons_of_mem _ h1)
        | RunSystems l =>
            simp only [pushSimpleStep, List.mem_cons] at hst
            rcases hst with h1 | h1 | h1
            · subst h1; exact trivial
            · subst h1; exact h _ (List.mem_cons_self _ _)
            · exact h st (List.mem_cons_of_mem _ h1)
        | RunLocalSystems l =>
            simp only [pushSimpleStep, List.mem_cons] at hst
            rcases hst with h1 | h1 | h1
            · subst h1; exact trivial
            · subst h1; exact h _ (List.mem_cons_self _ _)
            · exact h st (List.mem_cons_of_mem _ h1)
        | FlushCommands =>
            simp only [pushSimpleStep, List.mem_cons] at hst
            rcases hst with h1 | h1 | h1
            · subst h1; exact trivial
            · subst h1; exact h _ (List.mem_cons_self _ _)
            · exact h st (List.mem_cons_of_mem _ h1)
  | FlushCommands =>
      rcases steps with _ | ⟨hd, rest⟩
      · simp only [pushSimpleStep] at hst
        simp at hst
      · cases hd with
        | FlushCommands =>
            simp only [pushSimpleStep] at hst
            exact h st hst
        | RunSystems l =>
            simp only [pushSimpleStep, List.mem_cons] at hst
            rcases hst with h1 | h1 | h1
            · subst h1; exact trivial
            · subst h1; exact h _ (List.mem_cons_self _ _)
            · exact h st (List.mem_cons_of_mem _ h1)
        | RunLocalSystems l =>
            simp only [pushSimpleStep, List.mem_cons] at hst
            rcases hst with h1 | h1 | h1
            · subst h1; exact trivial
            · subst h1; exact h _ (List.mem_cons_self _ _)
            · exact h st (List.mem_cons_of_mem _ h1)
        | RunLocalFns l =>
            simp only [pushSimpleStep, List.mem_cons] at hst
            rcases hst with h1 | h1 | h1
            · subst h1; exact trivial
            · subst h1; exact h _ (List.mem_cons_self _ _)
            · exact h st (List.mem_cons_of_mem _ h1)

/-- The merging fold preserves the scheduling invariant. -/
theorem foldl_push_ok (ss : List SimpleStep) (acc : List Step)
    (h : ∀ st ∈ acc, stepOk st) :
    ∀ st ∈ ss.foldl pushSimpleStep acc, stepOk st := by
  induction ss generalizing acc with
  | nil => exact h
  | cons s t ih => exact ih _ (pushSimpleStep_ok s h)

/-- Every step produced by `merge_and_optimize_steps` satisfies the
scheduling invariant. -/
theorem merge_ok (ss : List SimpleStep) :
    ∀ st ∈ merge_and_optimize_steps ss, stepOk st := by
  intro st hst
  rw [merge_and_optimize_steps, List.mem_reverse] at hst
  exact foldl_push_ok _ [] (by intro u hu; cases hu) st hst

/-- C3: in every dispatcher built by `DispatcherBuilder::build`, every
`RunSystems` stage is pairwise non-conflicting — a `Run` system is merged
into the current stage only when it conflicts with no system already
there, so no two systems of one stage have conflicting accesses. -/
theorem ecstasy_c3 (simple_steps : List SimpleStep) (systems : List System)
    (hmem : Step.RunSystems systems ∈ (build simple_steps).steps) :
    ∀ i j, (hi : i < systems.length) → (hj : j < systems.length) → i ≠ j →
      ∀ a1 ∈ systems[i].accesses, ∀ a2 ∈ systems[j].accesses,
        a1.conflicts a2 = false := by
  intro i j hi hj hij a1 h1 a2 h2
  have hok : (systems : List System).Pairwise noConflict := merge_ok simple_steps _ hmem
  rw [List.pairwise_iff_getElem] at hok
  rcases Nat.lt_or_ge i j with hlt | hge
  · exact hok i j hi hj hlt a1 h1 a2 h2
  · have hlt : j < i := Nat.lt_of_le_of_ne hge fun e => hij e.symm
    exact noConflict_symm (hok j i hj hi hlt) a1 h1 a2 h2

/-- C3 witness: the claim instantiated on a two-system stage produced by
`build`. -/
theorem ecstasy_c3_witness :
    RegistryAccess.conflicts (.CompMut 0) (.Comp 1) = false :=
  ecstasy_c3 [.RunSystem c3sysA, .RunSystem c3sysB] [c3sysA, c3sysB]
    (by decide) 0 1 (by decide) (by decide) (by decide)
    (.CompMut 0) (by decide) (.Comp 1) (by decide)

/-- The run loop accumulates exactly the stage errors and the stage trace,
in order. -/
theorem runStep_foldl (ct : Nat) (steps : List Step) (acc : List Nat × List ExecEvent) :
    steps.foldl (runStep ct) acc = (acc.1 ++ allErrors steps, acc.2 ++ runTrace ct steps) := by
  induction steps generalizing acc with
  | nil => simp [allErrors, runTrace]
  | cons s t ih =>
      cases s <;>
        simp [runStep, allErrors, runTrace, stepErrors, stepTrace, ih, List.append_assoc]

/-- The parallel loop body computes the same result as the sequential one
(the ordered parallel collect preserves encounter order). -/
theorem runStepPar_eq (ct : Nat) (acc : List Nat × List ExecEvent) (st : Step) :
    runStepPar ct acc st = runStep ct acc st := by
  cases st with
  | RunSystems systems =>
      simp only [runStepPar, runStep]
      split <;> rfl
  | RunLocalSystems systems => rfl
  | RunLocalFns fs => rfl
  | FlushCommands => rfl

/-- The runnable ids of one step's trace are the step's runnable ids. -/
theorem executedIds_stepTrace (ct : Nat) (st : Step) :
    executedIds (stepTrace ct st) = stepRunnableIds st := by
  cases st with
  | RunSystems systems =>
      induction systems with
      | nil => rfl
      | cons s t ih =>
          simpa [stepTrace, stepRunnableIds, executedIds, List.filterMap_cons] using ih
  | RunLocalSystems systems =>
      induction systems with
      | nil => rfl
      | cons s t ih =>
          simpa [stepTrace, stepRunnableIds, executedIds, List.filterMap_cons] using ih
  | RunLocalFns fs =>
      induction fs with
      | nil => rfl
      | cons s t ih =>
          simpa [stepTrace, stepRunnableIds, executedIds, List.filterMap_cons] using ih
  | FlushCommands => rfl

/-- The runnable ids of a trace are the runnable ids of the steps. -/
theorem executedIds_runTrace (ct : Nat) (steps : List Step) :
    executedIds (runTrace ct steps) = allRunnableIds steps := by
  induction steps with
  | nil => rfl
  | cons s t ih =>
      simp only [runTrace, allRunnableIds, List.flatMap_cons, executedIds,
        List.filterMap_append]
      rw [← executedIds, ← executedIds, ← runTrace, ← allRunnableIds, ih,
        executedIds_stepTrace]

/-- Every registry-run system in a trace was handed the tick `ct`. -/
theorem runTrace_ticks (ct : Nat) (steps : List Step) :
    ∀ e ∈ runTrace ct steps, ∀ i t, e = ExecEvent.sys i t → t = ct := by
  intro e he i t het
  rw [runTrace, List.mem_flatMap] at he
  obtain ⟨st, _, hmem⟩ := he
  cases st with
  | RunSystems systems =>
      simp only [stepTrace, List.mem_map] at hmem
      obtain ⟨s, _, heq⟩ := hmem
      have h2 := heq.trans het
      injection h2 with _ h3
      exact h3.symm
  | RunLocalSystems systems =>
      simp only [stepTrace, List.mem_map] at hmem
      obtain ⟨s, _, heq⟩ := hmem
      have h2 := heq.trans het
      injection h2 with _ h3
      exact h3.symm
  | RunLocalFns fs =>
      simp only [stepTrace, List.mem_map] at hmem
      obtain ⟨f, _, heq⟩ := hmem
      exact ExecEvent.noConfusion (heq.trans het)
  | FlushCommands =>
      rw [stepTrace, List.mem_singleton] at hmem
      exact ExecEvent.noConfusion (hmem.symm.trans het)

/-- C5: `run_seq` and `run_par` execute every system of every stage (in
order) even when earlier systems fail, return `Ok(())` iff no system
returned an error, and otherwise return the aggregate of all collected
errors in encounter order across stages. -/
theorem ecstasy_c5 (d : Dispatcher) (world_tick wid : Nat) :
    ((d.run_seq world_tick wid).1 =
       if allErrors d.steps = [] then Except.ok () else Except.error (allErrors d.steps)) ∧
    executedIds (d.run_seq world_tick wid).2.2 = allRunnableIds d.steps ∧
    ((d.run_par world_tick wid).1 =
       if allErrors d.steps = [] then Except.ok () else Except.error (allErrors d.steps)) ∧
    executedIds (d.run_par world_tick wid).2.2 = allRunnableIds d.steps := by
  have hpar : ∀ acc, d.steps.foldl (runStepPar ((d.change_ticks wid).getD 0)) acc =
      d.steps.foldl (runStep ((d.change_ticks wid).getD 0)) acc := by
    intro acc
    have : runStepPar ((d.change_ticks wid).getD 0) =
        runStep ((d.change_ticks wid).getD 0) := by
      funext a b
      exact runStepPar_eq _ a b
    rw [this]
  have hseq := runStep_foldl ((d.change_ticks wid).getD 0) d.steps ([], [])
  refine ⟨?_, ?_, ?_, ?_⟩ <;>
    simp only [Dispatcher.run_seq, Dispatcher.run_par, hpar, hseq, List.nil_append] <;>
    by_cases he : allErrors d.steps = [] <;>
    simp [he, executedIds_runTrace]

/-- C6: every system run by `run_seq`/`run_par` is handed the change tick
previously stored for the world (0 on the first run), and afterwards —
whether the run succeeded or failed — the stored tick for that world is the
world tick observed at entry. -/
theorem ecstasy_c6 (d : Dispatcher) (world_tick wid : Nat) :
    (d.run_seq world_tick wid).2.1.change_ticks wid = some world_tick ∧
    (d.run_par world_tick wid).2.1.change_ticks wid = some world_tick ∧
    (∀ e ∈ (d.run_seq world_tick wid).2.2, ∀ i t, e = ExecEvent.sys i t →
      t = (d.change_ticks wid).getD 0) ∧
    (∀ e ∈ (d.run_par world_tick wid).2.2, ∀ i t, e = ExecEvent.sys i t →
      t = (d.change_ticks wid).getD 0) := by
  have hpar : ∀ acc, d.steps.foldl (runStepPar ((d.change_ticks wid).getD 0)) acc =
      d.steps.foldl (runStep ((d.change_ticks wid).getD 0)) acc := by
    intro acc
    have : runStepPar ((d.change_ticks wid).getD 0) =
        runStep ((d.change_ticks wid).getD 0) := by
      funext a b
      exact runStepPar_eq _ a b
    rw [this]
  have hseq := runStep_foldl ((d.change_ticks wid).getD 0) d.steps ([], [])
  refine ⟨?_, ?_, ?_, ?_⟩ <;>
    simp only [Dispatcher.run_seq, Dispatcher.run_par, hpar, hseq, List.nil_append]
  · simp
  · simp
  · exact runTrace_ticks _ _
  · exact runTrace_ticks _ _

/-- C6 witness: the claim instantiated on a one-system dispatcher running
for the first time with world tick 5. -/
theorem ecstasy_c6_witness :
    (c6Disp.run_seq 5 0).2.1.change_ticks 0 = some 5 ∧
    (0 : Nat) = (c6Disp.change_ticks 0).getD 0 :=
  ⟨(ecstasy_c6 c6Disp 5 0).1,
   (ecstasy_c6 c6Disp 5 0).2.2.1 (ExecEvent.sys 3 0) (by decide) 3 0 rfl⟩

/-- The bits of `maskFromTo f t` are exactly the interval `[f, t)`. -/
theorem maskFromTo_testBit {f t : Nat} (hft : f ≤ t) (i : Nat) :
    (maskFromTo f t).testBit i = (decide (f ≤ i) && decide (i < t)) := by
  rw [maskFromTo, Nat.one_shiftLeft, Nat.testBit_shiftLeft, Nat.testBit_two_pow_sub_one]
  by_cases h1 : f ≤ i
  · have h2 : i - f < t - f ↔ i < t := by omega
    simp [h1, h2]
  · simp [h1]

/-- The bits of `maskOfList cs` are exactly the members of `cs`. -/
theorem maskOfList_testBit (cs : List Nat) (i : Nat) :
    (maskOfList cs).testBit i = decide (i ∈ cs) := by
  induction cs with
  | nil => simp [maskOfList]
  | cons c t ih =>
      rw [maskOfList, List.foldr_cons, ← maskOfList, Nat.testBit_or, ih,
        Nat.one_shiftLeft, Nat.testBit_two_pow]
      simp only [List.mem_cons]
      by_cases hc : i = c
      · simp [hc]
      · have hc2 : ¬ c = i := fun h => hc h.symm
        simp [hc, hc2]

/-- A nonempty component list has a nonzero mask. -/
theorem maskOfList_eq_zero {cs : List Nat} (h : maskOfList cs = 0) : cs = [] := by
  cases cs with
  | nil => rfl
  | cons c t =>
      exfalso
      have hb := maskOfList_testBit (c :: t) c
      rw [h] at hb
      simp [Nat.zero_testBit, List.mem_cons] at hb

/-- A nonempty interval mask is nonzero. -/
theorem maskFromTo_ne_zero {f t : Nat} (h : f < t) : maskFromTo f t ≠ 0 := by
  intro h0
  have hb := maskFromTo_testBit (Nat.le_of_lt h) f
  rw [h0] at hb
  simp [Nat.zero_testBit] at hb
  omega

/-- Prefix interval masks determine their bound. -/
theorem maskFromTo_zero_inj {a b : Nat} (h : maskFromTo 0 a = maskFromTo 0 b) : a = b := by
  have hb : ∀ i, (decide (0 ≤ i) && decide (i < a)) = (decide (0 ≤ i) && decide (i < b)) := by
    intro i
    rw [← maskFromTo_testBit (Nat.zero_le a), ← maskFromTo_testBit (Nat.zero_le b), h]
  have h1 := hb a
  have h2 := hb b
  simp only [Nat.zero_le, decide_True, Bool.true_and, decide_eq_decide] at h1 h2
  simp [Nat.lt_irrefl] at h1 h2
  omega

/-- Interval masks with the same lower bound determine their upper bound. -/
theorem maskFromTo_inj {f t u : Nat} (hft : f ≤ t) (hfu : f ≤ u)
    (h : maskFromTo f t = maskFromTo f u) : t = u := by
  have hb : ∀ i, (decide (f ≤ i) && decide (i < t)) = (decide (f ≤ i) && decide (i < u)) := by
    intro i
    rw [← maskFromTo_testBit hft, ← maskFromTo_testBit hfu, h]
  have h1 := hb t
  have h2 := hb u
  simp only [decide_eq_true_eq, Bool.and_eq_true, decide_eq_decide] at h1 h2
  rw [show (decide (f ≤ t)) = true from decide_eq_true hft] at h1
  rw [show (decide (f ≤ u)) = true from decide_eq_true hfu] at h2
  simp only [Bool.true_and, decide_eq_decide] at h1 h2
  simp [Nat.lt_irrefl] at h1 h2
  omega

/-- Membership description of a component list whose mask is an interval. -/
theorem mem_of_mask_eq {cs : List Nat} {f t : Nat} (hft : f ≤ t)
    (h : maskOfList cs = maskFromTo f t) : ∀ c, c ∈ cs ↔ f ≤ c ∧ c < t := by
  intro c
  have hb : decide (c ∈ cs) = (decide (f ≤ c) && decide (c < t)) := by
    rw [← maskOfList_testBit, ← maskFromTo_testBit hft, h]
  rw [← Bool.decide_and, decide_eq_decide] at hb
  exact hb

/-- Field equation of the family well-formedness predicate: nested link. -/
theorem wf_link {fam : List Group} (hwf : FamilyWF fam) {i : Nat} (h : i + 1 < fam.length) :
    fam[i + 1].prevArity = fam[i].arity := by
  have hx := (hwf (i + 1) h).1
  simpa [List.getElem?_eq_getElem (show i < fam.length by omega)] using hx

/-- Field equation of the family well-formedness predicate: strict arity. -/
theorem wf_lt {fam : List Group} (hwf : FamilyWF fam) {i : Nat} (h : i < fam.length) :
    fam[i].prevArity < fam[i].arity :=
  (hwf i h).2

/-- The innermost group's previous arity is zero. -/
theorem wf_prev0 {fam : List Group} (hwf : FamilyWF fam) (h : 0 < fam.length) :
    fam[0].prevArity = 0 := by
  simpa using (hwf 0 h).1

/-- Arities are strictly increasing along the family. -/
theorem arity_strictMono {fam : List Group} (hwf : FamilyWF fam) :
    ∀ i j, (hj : j < fam.length) → (hij : i < j) → fam[i].arity < fam[j].arity := by
  intro i j
  induction j with
  | zero => omega
  | succ k ih =>
      intro hj hij
      have hk : k < fam.length := Nat.lt_of_succ_lt hj
      have hlink : fam[k + 1].prevArity = fam[k].arity := wf_link hwf hj
      have hlt : fam[k + 1].prevArity < fam[k + 1].arity := wf_lt hwf hj
      rcases Nat.lt_or_ge i k with hik | hik
      · exact lt_trans (ih hk hik) (hlink ▸ hlt)
      · have hik2 : i = k := by omega
        subst hik2
        exact hlink ▸ hlt

/-- Arities are monotone along the family. -/
theorem arity_mono {fam : List Group} (hwf : FamilyWF fam) {i j : Nat}
    (hj : j < fam.length) (hij : i ≤ j) : fam[i].arity ≤ fam[j].arity := by
  rcases Nat.lt_or_ge i j with h | h
  · exact Nat.le_of_lt (arity_strictMono hwf i j hj h)
  · have : i = j := by omega
    subst this
    exact Nat.le_refl _

/-- Within a family, the arity determines the group index. -/
theorem arity_inj {fam : List Group} (hwf : FamilyWF fam) {i j : Nat}
    (hi : i < fam.length) (hj : j < fam.length) (h : fam[i].arity = fam[j].arity) : i = j := by
  rcases Nat.lt_trichotomy i j with hlt | heq | hgt
  · exact absurd h (Nat.ne_of_lt (arity_strictMono hwf i j hj hlt))
  · exact heq
  · exact absurd h.symm (Nat.ne_of_lt (arity_strictMono hwf j i hi hgt))

/-- A component below group `j`'s arity has offset at most `j`. -/
theorem groupOffsetOf_le {fam : List Group} {c j : Nat} (hj : j < fam.length)
    (hc : c < fam[j].arity) : groupOffsetOf fam c ≤ j := by
  induction fam generalizing j with
  | nil => simp at hj
  | cons g t ih =>
      rw [groupOffsetOf]
      by_cases hg : c < g.arity
      · simp [hg]
      · rw [if_neg hg]
        cases j with
        | zero =>
            simp only [List.getElem_cons_zero] at hc
            exact absurd hc hg
        | succ k =>
            have hk : k < t.length := by simpa using hj
            have hck : c < t[k].arity := by simpa using hc
            exact Nat.succ_le_succ (ih hk hck)

/-- A component at or above every arity up to group `j` has offset above `j`. -/
theorem lt_groupOffsetOf {fam : List Group} {c j : Nat} (hj : j < fam.length)
    (hc : ∀ k, (hk : k ≤ j) → fam[k].arity ≤ c) : j < groupOffsetOf fam c := by
  induction fam generalizing j with
  | nil => simp at hj
  | cons g t ih =>
      have hg : ¬ c < g.arity := by
        have := hc 0 (Nat.zero_le _)
        simp only [List.getElem_cons_zero] at this
        omega
      rw [groupOffsetOf, if_neg hg]
      cases j with
      | zero => omega
      | succ k =>
          have hk : k < t.length := by simpa using hj
          have hck : ∀ k2, (hk2 : k2 ≤ k) → t[k2].arity ≤ c := by
            intro k2 hk2
            have := hc (k2 + 1) (Nat.succ_le_succ hk2)
            simpa using this
          exact Nat.succ_lt_succ (ih hk hck)

/-- Upper bound for a fold of `max` over a list. -/
theorem foldr_max_le {l : List Nat} {b : Nat} (h : ∀ x ∈ l, x ≤ b) : l.foldr max 0 ≤ b := by
  induction l with
  | nil => simp
  | cons x t ih =>
      rw [List.foldr_cons]
      rw [Nat.max_le]
      exact ⟨h x (List.mem_cons_self _ _), ih fun y hy => h y (List.mem_cons_of_mem _ hy)⟩

/-- Lower bound for a fold of `max` over a list. -/
theorem le_foldr_max {l : List Nat} {x : Nat} (h : x ∈ l) : x ≤ l.foldr max 0 := by
  induction l with
  | nil => cases h
  | cons y t ih =>
      rw [List.foldr_cons]
      rcases List.mem_cons.mp h with h1 | h1
      · subst h1; exact Nat.le_max_left _ _
      · exact Nat.le_trans (ih h1) (Nat.le_max_right _ _)

/-- The query offset equals `j` when every view's offset is at most `j` and
some view's offset is exactly `j`. -/
theorem queryOffsetOf_eq {fam : List Group} {incl excl : List Nat} {j : Nat}
    (hub : ∀ c ∈ incl ++ excl, groupOffsetOf fam c ≤ j)
    (hwit : ∃ c ∈ incl ++ excl, groupOffsetOf fam c = j) :
    queryOffsetOf fam incl excl = j := by
  apply Nat.le_antisymm
  · apply foldr_max_le
    intro x hx
    rw [List.mem_map] at hx
    obtain ⟨c, hc, rfl⟩ := hx
    exact hub c hc
  · obtain ⟨c, hc, hoff⟩ := hwit
    rw [← hoff]
    exact le_foldr_max (List.mem_map_of_mem _ hc)

/-- `firstMatch` returns `none` when nothing matches. -/
theorem firstMatch_eq_none {p : Group → Bool} {fam : List Group}
    (h : ∀ k, (hk : k < fam.length) → p fam[k] = false) : firstMatch p fam = none := by
  induction fam with
  | nil => rfl
  | cons g t ih =>
      have h0 : p g = false := by simpa using h 0 (by simp)
      rw [firstMatch, if_neg (by simp [h0])]
      rw [ih fun k hk => by simpa using h (k + 1) (by simpa using Nat.succ_lt_succ hk)]
      rfl

/-- `firstMatch` finds the unique match. -/
theorem firstMatch_eq_some {p : Group → Bool} {fam : List Group} {j : Nat}
    (hj : j < fam.length) (hpj : p fam[j] = true)
    (huniq : ∀ k, (hk : k < fam.length) → p fam[k] = true → k = j) :
    firstMatch p fam = some j := by
  induction fam generalizing j with
  | nil => simp at hj
  | cons g t ih =>
      cases j with
      | zero =>
          have hg : p g = true := by simpa using hpj
          rw [firstMatch, if_pos hg]
      | succ k =>
          have hg : p g = false := by
            by_contra hg
            have hg2 : p g = true := by
              cases hx : p g
              · exact absurd hx hg
              · rfl
            have := huniq 0 (by omega) (by simpa using hg2)
            omega
          rw [firstMatch, if_neg (by simp [hg])]
          have hk : k < t.length := by simpa using hj
          have hpk : p t[k] = true := by simpa using hpj
          have hu : ∀ k2, (hk2 : k2 < t.length) → p t[k2] = true → k2 = k := by
            intro k2 hk2 hp2
            have := huniq (k2 + 1) (by simpa using Nat.succ_lt_succ hk2) (by simpa using hp2)
            omega
          rw [ih hk hpk hu]
          rfl

/-- The outermost arity of a nonempty family. -/
theorem lastArity_eq {fam : List Group} (h : 0 < fam.length) :
    lastArity fam = fam[fam.length - 1].arity := by
  rw [lastArity, List.getLast?_eq_getElem?, List.getElem?_eq_getElem (by omega)]

/-- C8: for a query over one well-formed group family — components are the
family-local indices, each view's offset is its innermost containing group,
the query offset and masks accumulate as in `QueryGroupInfo` — the
`group_range` of `group_info.rs` computes exactly the spec's walk: an
include-mask match on a group `g` yields `[0, L_g)`, an exclude-mask match
on a nested pair `(g', g)` yields `[L_{g'}, L_g)`, anything else yields no
dense range; in particular the computation is well defined for every group
of the family, the innermost group (offset 0) included. -/
theorem ecstasy_c8 (fam : List Group) (incl excl : List Nat)
    (hwf : FamilyWF fam) (hincl : incl ≠ [])
    (hval : ∀ c ∈ incl ++ excl, c < lastArity fam) :
    group_range fam (queryOffsetOf fam incl excl) (queryMaskOf incl excl)
      = some (specGroupRange fam (queryMaskOf incl excl)) := by
  obtain ⟨c0, hc0⟩ := List.exists_mem_of_ne_nil incl hincl
  have hn : 0 < fam.length := by
    by_contra hn
    have hfam : fam = [] := List.length_eq_zero.mp (by omega)
    have hv := hval c0 (List.mem_append_left _ hc0)
    rw [hfam] at hv
    simp [lastArity] at hv
  by_cases hinc : ∃ j, ∃ hj : j < fam.length, queryMaskOf incl excl = fam[j].include_mask
  · obtain ⟨j, hj, hM⟩ := hinc
    have hMinc : maskOfList incl = maskFromTo 0 fam[j].arity := congrArg QueryMask.inc hM
    have hMexc : maskOfList excl = 0 := congrArg QueryMask.exc hM
    have hexnil : excl = [] := maskOfList_eq_zero hMexc
    have hpa : fam[j].prevArity < fam[j].arity := wf_lt hwf hj
    have hmemI := mem_of_mask_eq (Nat.zero_le _) hMinc
    have hwit_mem : fam[j].arity - 1 ∈ incl := (hmemI _).mpr ⟨Nat.zero_le _, by omega⟩
    have hoff : queryOffsetOf fam incl excl = j := by
      apply queryOffsetOf_eq
      · intro c hc
        rw [hexnil, List.append_nil] at hc
        exact groupOffsetOf_le hj ((hmemI c).mp hc).2
      · refine ⟨fam[j].arity - 1, List.mem_append_left _ hwit_mem, ?_⟩
        apply Nat.le_antisymm (groupOffsetOf_le hj (by omega))
        cases j with
        | zero => exact Nat.zero_le _
        | succ k =>
            have hk1 : k < fam.length := by omega
            have hlink : fam[k + 1].prevArity = fam[k].arity := wf_link hwf hj
            exact lt_groupOffsetOf hk1 fun k2 hk2 => by
              have h1 : fam[k2].arity ≤ fam[k].arity := arity_mono hwf hk1 hk2
              omega
    have hfm1 : firstMatch (fun g => decide (queryMaskOf incl excl = g.include_mask)) fam
        = some j := by
      apply firstMatch_eq_some hj (decide_eq_true hM)
      intro k hk hdk
      have hk2 : queryMaskOf incl excl = fam[k].include_mask := of_decide_eq_true hdk
      have heq : fam[k].include_mask = fam[j].include_mask := hk2.symm.trans hM
      have ha : maskFromTo 0 fam[k].arity = maskFromTo 0 fam[j].arity :=
        congrArg QueryMask.inc heq
      exact arity_inj hwf hk hj (maskFromTo_zero_inj ha)
    have hsome : fam[j]? = some fam[j] := List.getElem?_eq_getElem hj
    rw [hoff]
    unfold group_range specGroupRange
    simp only [hsome, hfm1, if_pos hM, List.getD_eq_getElem fam default hj]
  · by_cases hexc : ∃ j, ∃ hj : j < fam.length, queryMaskOf incl excl = fam[j].exclude_mask
    · obtain ⟨j, hj, hM⟩ := hexc
      cases j with
      | zero =>
          exfalso
          have hp0 : fam[0].prevArity = 0 := wf_prev0 hwf hn
          have hMinc : maskOfList incl = maskFromTo 0 fam[0].prevArity :=
            congrArg QueryMask.inc hM
          rw [hp0] at hMinc
          have hz : maskFromTo 0 0 = 0 := by decide
          rw [hz] at hMinc
          exact hincl (maskOfList_eq_zero hMinc)
      | succ k =>
          have hk1 : k < fam.length := by omega
          have hpa : fam[k + 1].prevArity < fam[k + 1].arity := wf_lt hwf hj
          have hlink : fam[k + 1].prevArity = fam[k].arity := wf_link hwf hj
          have hMinc : maskOfList incl = maskFromTo 0 fam[k + 1].prevArity :=
            congrArg QueryMask.inc hM
          have hMexc : maskOfList excl =
              maskFromTo fam[k + 1].prevArity fam[k + 1].arity :=
            congrArg QueryMask.exc hM
          have hmemI := mem_of_mask_eq (Nat.zero_le _) hMinc
          have hmemE := mem_of_mask_eq (Nat.le_of_lt hpa) hMexc
          have hwitE : fam[k + 1].arity - 1 ∈ excl := (hmemE _).mpr ⟨by omega, by omega⟩
          have hoff : queryOffsetOf fam incl excl = k + 1 := by
            apply queryOffsetOf_eq
            · intro c hc
              rcases List.mem_append.mp hc with hci | hce
              · refine groupOffsetOf_le hj ?_
                have := ((hmemI c).mp hci).2
                omega
              · exact groupOffsetOf_le hj ((hmemE c).mp hce).2
            · refine ⟨fam[k + 1].arity - 1, List.mem_append_right _ hwitE, ?_⟩
              apply Nat.le_antisymm (groupOffsetOf_le hj (by omega))
              exact lt_groupOffsetOf hk1 fun k2 hk2 => by
                have h1 : fam[k2].arity ≤ fam[k].arity := arity_mono hwf hk1 hk2
                omega
          have hne : ¬ queryMaskOf incl excl = fam[k + 1].include_mask := by
            intro he
            have h0 : (fam[k + 1].include_mask).exc = (fam[k + 1].exclude_mask).exc :=
              congrArg QueryMask.exc (he.symm.trans hM)
            exact maskFromTo_ne_zero hpa h0.symm
          have hf1 : firstMatch
              (fun g => decide (queryMaskOf incl excl = g.include_mask)) fam = none :=
            firstMatch_eq_none fun k2 hk2 =>
              decide_eq_false fun he => hinc ⟨k2, hk2, he⟩
          have hf2 : firstMatch
              (fun g => decide (queryMaskOf incl excl = g.exclude_mask)) fam
              = some (k + 1) := by
            apply firstMatch_eq_some hj (decide_eq_true hM)
            intro k2 hk2 hdk
            have hk3 : queryMaskOf incl excl = fam[k2].exclude_mask := of_decide_eq_true hdk
            have heq : fam[k2].exclude_mask = fam[k + 1].exclude_mask := hk3.symm.trans hM
            have hpi : maskFromTo 0 fam[k2].prevArity = maskFromTo 0 fam[k + 1].prevArity :=
              congrArg QueryMask.inc heq
            have hpeq : fam[k2].prevArity = fam[k + 1].prevArity := maskFromTo_zero_inj hpi
            have hei : maskFromTo fam[k2].prevArity fam[k2].arity =
                maskFromTo fam[k + 1].prevArity fam[k + 1].arity :=
              congrArg QueryMask.exc heq
            rw [hpeq] at hei
            have hpa2 : fam[k2].prevArity < fam[k2].arity := wf_lt hwf hk2
            have haeq : fam[k2].arity = fam[k + 1].arity :=
              maskFromTo_inj (by omega) (Nat.le_of_lt hpa) hei
            exact arity_inj hwf hk2 hj haeq
          have hsome : fam[k + 1]? = some fam[k + 1] := List.getElem?_eq_getElem hj
          have hksome : fam[k]? = some fam[k] := List.getElem?_eq_getElem hk1
          rw [hoff]
          unfold group_range specGroupRange
          simp only [hsome, hksome, hf1, hf2, if_neg hne, if_pos hM,
            List.getD_eq_getElem fam default hj, List.getD_eq_getElem fam default hk1]
    · have hoff_lt : queryOffsetOf fam incl excl < fam.length := by
        have hle : queryOffsetOf fam incl excl ≤ fam.length - 1 := by
          apply foldr_max_le
          intro x hx
          rw [List.mem_map] at hx
          obtain ⟨c, hc, rfl⟩ := hx
          apply groupOffsetOf_le (show fam.length - 1 < fam.length by omega)
          rw [← lastArity_eq hn]
          exact hval c hc
        omega
      have hsome : fam[queryOffsetOf fam incl excl]? =
          some fam[queryOffsetOf fam incl excl] := List.getElem?_eq_getElem hoff_lt
      have hn1 : ¬ queryMaskOf incl excl = fam[queryOffsetOf fam incl excl].include_mask :=
        fun he => hinc ⟨_, hoff_lt, he⟩
      have hn2 : ¬ queryMaskOf incl excl = fam[queryOffsetOf fam incl excl].exclude_mask :=
        fun he => hexc ⟨_, hoff_lt, he⟩
      have hf1 : firstMatch
          (fun g => decide (queryMaskOf incl excl = g.include_mask)) fam = none :=
        firstMatch_eq_none fun k2 hk2 => decide_eq_false fun he => hinc ⟨k2, hk2, he⟩
      have hf2 : firstMatch
          (fun g => decide (queryMaskOf incl excl = g.exclude_mask)) fam = none :=
        firstMatch_eq_none fun k2 hk2 => decide_eq_false fun he => hexc ⟨k2, hk2, he⟩
      unfold group_range specGroupRange
      simp only [hsome, hf1, hf2, if_neg hn1, if_neg hn2]

/-- C8 witness: the claim instantiated on the spec's S3 family (`{A,B}` of
length 30 nested in `{A,B,C}` of length 60) with the query `(A, B, !C)`. -/
theorem ecstasy_c8_witness :
    group_range sampleFamily (queryOffsetOf sampleFamily [0, 1] [2])
        (queryMaskOf [0, 1] [2])
      = some (specGroupRange sampleFamily (queryMaskOf [0, 1] [2])) :=
  ecstasy_c8 sampleFamily [0, 1] [2] (by decide) (by decide) (by decide)

end Ecstasy
